import Mathlib

/-!
Verification of `organize_fastq.py`, a script that scans a directory tree
for lane-split FASTQ files, groups them by (sample, read direction,
extension), and consolidates every group into one file per sample.

The embedding is shallow and executable:

* filenames are `List Char` (Python `str`),
* file contents are `List Nat` (byte sequences),
* paths are lists of components (`List (List Char)`), standing for
  resolved POSIX paths (`Path.resolve` output),
* the filesystem is an association list of path/content pairs together
  with a list of existing directories,
* the output of `os.walk` is passed in explicitly as data
  (`List WalkDir`), each directory carrying both the raw `dirpath` used
  to build entry paths and its resolved absolute form used by the
  exclusion test,
* the compiled pattern `FASTQ_RE` (built with `re.IGNORECASE`) is
  embedded as an executable parser `fastqMatch`, anchored at both ends
  as the `^...$` of the source is; following Python semantics, `$` also
  matches just before one trailing newline.  Case insensitivity is
  modelled over the ASCII letters appearing in the pattern: a literal
  letter matches exactly its two casings.
-/

namespace OrganizeFastq

/-- File contents, as byte sequences. -/
abbrev Bytes := List Nat

/-- A resolved path, as a list of name components. -/
abbrev FPath := List (List Char)

/-! ## The Matcher: embedding of `FASTQ_RE`

Source, `src/organize_fastq.py` lines 22-26:

    FASTQ_RE = re.compile(
        r"^(?P<prefix>.+)_(?P<sample>[^_]+)_L(?P<lane>\d+)_R(?P<read>[12])"
        r"(?P<ext>\.(?:f(?:ast)?q)(?:\.gz)?)$",
        re.IGNORECASE,
    )

The parser consumes the filename from the right (the pattern is anchored
with `$`), which makes every capture deterministic: the extension is one
of four fixed case-insensitive literals, the lane digits are the maximal
digit run left of `_R<read><ext>`, the sample is the maximal
underscore-free run left of `_L<lane>...`, and the leading group (the
pattern's first capture, `.+`) is whatever remains, which must be
nonempty and free of newlines (`.` does not match a newline). -/

/-- One character of a case-insensitive literal: the two accepted casings. -/
abbrev CIChar := Char × Char

/-- The literal `.fastq`, case-insensitively. -/
def extFastq : List CIChar :=
  [('.', '.'), ('f', 'F'), ('a', 'A'), ('s', 'S'), ('t', 'T'), ('q', 'Q')]

/-- The literal `.fq`, case-insensitively. -/
def extFq : List CIChar := [('.', '.'), ('f', 'F'), ('q', 'Q')]

/-- The literal `.fastq.gz`, case-insensitively. -/
def extFastqGz : List CIChar := extFastq ++ [('.', '.'), ('g', 'G'), ('z', 'Z')]

/-- The literal `.fq.gz`, case-insensitively. -/
def extFqGz : List CIChar := extFq ++ [('.', '.'), ('g', 'G'), ('z', 'Z')]

/-- `ciOk cs ps` holds when `cs` spells the case-insensitive literal `ps`. -/
def ciOk : List Char → List CIChar → Bool
  | [], [] => true
  | c :: cs, p :: ps => (c == p.1 || c == p.2) && ciOk cs ps
  | _, _ => false

/-- Strip a case-insensitive literal from the front of the input,
returning the matched characters (with their original casing) and the
remaining input. -/
def matchCI : List CIChar → List Char → Option (List Char × List Char)
  | [], r => some ([], r)
  | _ :: _, [] => none
  | p :: ps, c :: cs =>
    if c == p.1 || c == p.2 then
      (matchCI ps cs).map fun x => (c :: x.1, x.2)
    else none

/-- Try a list of case-insensitive literals in order. -/
def stripExtAux : List (List CIChar) → List Char → Option (List Char × List Char)
  | [], _ => none
  | p :: ps, r =>
    match matchCI p r with
    | some x => some x
    | none => stripExtAux ps r

/-- The four alternatives of the `ext` group, reversed because the parser
reads the filename from the right. -/
def extPatsRev : List (List CIChar) :=
  [extFastqGz.reverse, extFqGz.reverse, extFastq.reverse, extFq.reverse]

/-- Strip the (reversed) extension group from the reversed filename. -/
def stripExt (r : List Char) : Option (List Char × List Char) :=
  stripExtAux extPatsRev r

/-- Strip one trailing newline if present (Python `$` matches at the end of
the string or just before a newline at the end of the string). On the
reversed input this newline is at the front. -/
def stripNl : List Char → Bool × List Char
  | [] => (false, [])
  | c :: cs => if c == '\n' then (true, cs) else (false, c :: cs)

/-- Strip one character that must be one of the two given casings. -/
def stripOne (lo hi : Char) : List Char → Option (Char × List Char)
  | [] => none
  | c :: cs => if c == lo || c == hi then some (c, cs) else none

/-- Strip one literal underscore. -/
def stripUnd : List Char → Option (List Char)
  | [] => none
  | c :: cs => if c == '_' then some cs else none

/-- Take the longest run of characters satisfying `p` (a span). -/
def spanD (p : Char → Bool) : List Char → List Char × List Char
  | [] => ([], [])
  | c :: cs =>
    if p c then
      let x := spanD p cs
      (c :: x.1, x.2)
    else ([], c :: cs)

theorem spanD_cons (p : Char → Bool) (c : Char) (cs : List Char) :
    spanD p (c :: cs) =
      if p c then (c :: (spanD p cs).1, (spanD p cs).2) else ([], c :: cs) := by
  simp only [spanD]

/-- The `\d` character class (ASCII scope of the model). -/
def isDig (c : Char) : Bool := c.isDigit

/-- Strip a nonempty run of digits (the `lane` group `\d+`). -/
def stripDigits (r : List Char) : Option (List Char × List Char) :=
  let x := spanD isDig r
  if x.1.isEmpty then none else some x

/-- Strip a nonempty run of non-underscore characters (the `sample`
group `[^_]+`). -/
def stripSample (r : List Char) : Option (List Char × List Char) :=
  let x := spanD (fun c => !(c == '_')) r
  if x.1.isEmpty then none else some x

/-- The remaining (reversed) characters form the pattern's leading `.+`
group: they must be nonempty and contain no newline. -/
def checkHead : List Char → Option (List Char)
  | [] => none
  | c :: cs =>
    if (c :: cs).all (fun d => !(d == '\n')) then some (c :: cs) else none

/-- The result of a successful `FASTQ_RE.match`: the five captured groups
plus, for stating the matched span exactly, the literal `L` and `R`
characters the pattern consumed (not named groups in the source) and
whether the match ended just before a trailing newline. -/
structure FastqMatch where
  pre : List Char
  sample : List Char
  laneStr : List Char
  laneChar : Char
  readChar : Char
  rdir : Char
  ext : List Char
  trailNl : Bool
deriving DecidableEq, Repr

/-- The parser on the reversed filename. -/
def fastqMatchRev (r0 : List Char) : Option FastqMatch :=
  let nlr := stripNl r0
  (stripExt nlr.2).bind fun x1 =>
  (stripOne '1' '2' x1.2).bind fun x2 =>
  (stripOne 'r' 'R' x2.2).bind fun x3 =>
  (stripUnd x3.2).bind fun r5 =>
  (stripDigits r5).bind fun x4 =>
  (stripOne 'l' 'L' x4.2).bind fun x5 =>
  (stripUnd x5.2).bind fun r8 =>
  (stripSample r8).bind fun x6 =>
  (stripUnd x6.2).bind fun r10 =>
  (checkHead r10).map fun preRev =>
    ⟨preRev.reverse, x6.1.reverse, x4.1.reverse, x5.1, x3.1, x2.1, x1.1.reverse, nlr.1⟩

/-- Embedding of `FASTQ_RE.match` applied to a filename. -/
def fastqMatch (s : List Char) : Option FastqMatch :=
  fastqMatchRev s.reverse

/-- The span of characters a successful match covers: the whole filename. -/
def FastqMatch.flat (m : FastqMatch) : List Char :=
  m.pre ++ '_' :: m.sample ++ '_' :: m.laneChar :: m.laneStr ++
    '_' :: m.readChar :: m.rdir :: m.ext ++
    (if m.trailNl then ['\n'] else [])

/-- The constraints the pattern places on the pieces of a match:
nonempty newline-free leading group, nonempty underscore-free sample,
nonempty digit run, `L`/`R` in either case, read direction `1` or `2`,
and one of the four case-insensitive extensions. -/
def FastqMatch.wf (m : FastqMatch) : Bool :=
  !m.pre.isEmpty &&
    (m.pre.all (fun c => !(c == '\n')) &&
    (!m.sample.isEmpty &&
    (m.sample.all (fun c => !(c == '_')) &&
    (!m.laneStr.isEmpty &&
    (m.laneStr.all isDig &&
    ((m.laneChar == 'l' || m.laneChar == 'L') &&
    ((m.readChar == 'r' || m.readChar == 'R') &&
    ((m.rdir == '1' || m.rdir == '2') &&
    (ciOk m.ext extFastqGz ||
      (ciOk m.ext extFqGz || (ciOk m.ext extFastq || ciOk m.ext extFq)))))))))))

/-- `int(...)` on the lane digits (unsigned decimal, leading zeros allowed). -/
def digitsToNat (ds : List Char) : Nat :=
  ds.foldl (fun n c => 10 * n + (c.toNat - 48)) 0

example :
    fastqMatch "S1_A_L001_R1.fastq.gz".data =
      some ⟨"S1".data, "A".data, "001".data, 'L', 'R', '1', ".fastq.gz".data, false⟩ := by
  decide

example : fastqMatch "_A_L001_R1.fastq".data = none := by decide

example :
    (fastqMatch "x_A_L1_R2.FQ.GZ\n".data).map FastqMatch.ext =
      some ".FQ.GZ".data := by decide

example : fastqMatch "A_L001_R1.fastq".data = none := by decide

example : fastqMatch "x_A_L001_R3.fastq".data = none := by decide

/-! ## Characterization of the Matcher

`fastqMatch s = some m` exactly when `s` is the span `m.flat` of a
well-formed match `m`.  Soundness and completeness are proved stage by
stage along the parser. -/

theorem ciOk_nil_left {ps : List CIChar} (h : ciOk [] ps = true) : ps = [] := by
  cases ps with
  | nil => rfl
  | cons p ps => simp [ciOk] at h

theorem ciOk_cons {c : Char} {cs : List Char} {ps : List CIChar}
    (h : ciOk (c :: cs) ps = true) :
    ∃ p ps', ps = p :: ps' ∧ (c == p.1 || c == p.2) = true ∧ ciOk cs ps' = true := by
  cases ps with
  | nil => simp [ciOk] at h
  | cons p ps' =>
    simp only [ciOk, Bool.and_eq_true] at h
    exact ⟨p, ps', rfl, h.1, h.2⟩

theorem ciOk_append {cs ds : List Char} {ps qs : List CIChar}
    (h1 : ciOk cs ps = true) (h2 : ciOk ds qs = true) :
    ciOk (cs ++ ds) (ps ++ qs) = true := by
  induction cs generalizing ps with
  | nil =>
    obtain rfl := ciOk_nil_left h1
    simpa using h2
  | cons c cs ih =>
    obtain ⟨p, ps', rfl, hc, hrest⟩ := ciOk_cons h1
    simp only [List.cons_append, ciOk, Bool.and_eq_true]
    exact ⟨hc, ih hrest⟩

theorem ciOk_rev {cs : List Char} {ps : List CIChar} (h : ciOk cs ps = true) :
    ciOk cs.reverse ps.reverse = true := by
  induction cs generalizing ps with
  | nil =>
    obtain rfl := ciOk_nil_left h
    simpa using h
  | cons c cs ih =>
    obtain ⟨p, ps', rfl, hc, hrest⟩ := ciOk_cons h
    simp only [List.reverse_cons]
    exact ciOk_append (ih hrest) (by simp [ciOk, hc])

/-- The last element of a case-insensitive literal constrains the head of
the reversed matched characters. -/
theorem ciOk_last_head {e : List Char} {ps : List CIChar} {p : CIChar}
    (h : ciOk e (ps ++ [p]) = true) :
    ∃ c t, e.reverse = c :: t ∧ (c == p.1 || c == p.2) = true := by
  induction ps generalizing e with
  | nil =>
    cases e with
    | nil => simp [ciOk] at h
    | cons c cs =>
      simp only [List.nil_append, ciOk, Bool.and_eq_true] at h
      have hcs : cs = [] := by
        cases cs with
        | nil => rfl
        | cons d ds => simp [ciOk] at h
      subst hcs
      exact ⟨c, [], by simp, h.1⟩
  | cons q qs ih =>
    cases e with
    | nil => simp [ciOk] at h
    | cons c cs =>
      simp only [List.cons_append, ciOk, Bool.and_eq_true] at h
      obtain ⟨c', t', ht, hc'⟩ := ih h.2
      exact ⟨c', t' ++ [c], by simp [ht], hc'⟩

theorem matchCI_sound :
    ∀ (ps : List CIChar) (r mm rest : List Char),
      matchCI ps r = some (mm, rest) → r = mm ++ rest ∧ ciOk mm ps = true := by
  intro ps
  induction ps with
  | nil =>
    intro r mm rest h
    simp only [matchCI, Option.some.injEq, Prod.mk.injEq] at h
    obtain ⟨h1, h2⟩ := h
    subst h1; subst h2
    exact ⟨rfl, rfl⟩
  | cons p ps ih =>
    intro r mm rest h
    cases r with
    | nil => simp [matchCI] at h
    | cons c cs =>
      simp only [matchCI] at h
      by_cases hc : (c == p.1 || c == p.2) = true
      · rw [if_pos hc] at h
        cases hm : matchCI ps cs with
        | none => rw [hm] at h; simp at h
        | some x =>
          rw [hm] at h
          simp at h
          obtain ⟨h1, h2⟩ := h
          obtain ⟨hx1, hx2⟩ := ih cs x.1 x.2 (by rw [hm])
          subst h1; subst h2
          constructor
          · simp [hx1]
          · simp [ciOk, hc, hx2]
      · rw [if_neg hc] at h; simp at h

theorem matchCI_complete {ps : List CIChar} {mm : List Char} (rest : List Char)
    (h : ciOk mm ps = true) : matchCI ps (mm ++ rest) = some (mm, rest) := by
  induction mm generalizing ps with
  | nil => rw [ciOk_nil_left h]; rfl
  | cons c cs ih =>
    obtain ⟨p, ps', rfl, hc, hrest⟩ := ciOk_cons h
    simp [matchCI, hc, ih hrest]

/-- `pairsClash ps qs` holds when at some common position the two
case-insensitive literals accept disjoint character sets. -/
def pairsClash : List CIChar → List CIChar → Bool
  | p :: ps, q :: qs =>
    (!(p.1 == q.1) && !(p.1 == q.2) && !(p.2 == q.1) && !(p.2 == q.2)) ||
      pairsClash ps qs
  | _, _ => false

theorem matchCI_clash {pt po : List CIChar} {e : List Char} (rest : List Char)
    (hcl : pairsClash pt po = true) (he : ciOk e pt = true) :
    matchCI po (e ++ rest) = none := by
  induction e generalizing pt po with
  | nil =>
    rw [ciOk_nil_left he] at hcl
    cases po <;> simp [pairsClash] at hcl
  | cons c cs ih =>
    obtain ⟨p, ps', rfl, hc, hrest⟩ := ciOk_cons he
    cases po with
    | nil => simp [pairsClash] at hcl
    | cons q qs =>
      simp only [List.cons_append, matchCI]
      by_cases hq : (c == q.1 || c == q.2) = true
      · rw [if_pos hq]
        simp only [pairsClash, Bool.or_eq_true, Bool.and_eq_true, Bool.not_eq_true',
          beq_eq_false_iff_ne, ne_eq] at hcl
        rcases hcl with ⟨⟨⟨h11, h12⟩, h21⟩, h22⟩ | htail
        · exfalso
          simp only [Bool.or_eq_true, beq_iff_eq] at hc hq
          rcases hc with rfl | rfl <;> rcases hq with h | h <;> simp_all
        · rw [List.append_eq, ih htail hrest]
          rfl
      · rw [if_neg hq]

theorem stripNl_sound {r r1 : List Char} {b : Bool} (h : stripNl r = (b, r1)) :
    r = (if b then ['\n'] else []) ++ r1 := by
  cases r with
  | nil =>
    simp only [stripNl, Prod.mk.injEq] at h
    obtain ⟨h1, h2⟩ := h
    subst h1; subst h2; rfl
  | cons c cs =>
    simp only [stripNl] at h
    by_cases hc : (c == '\n') = true
    · rw [if_pos hc] at h
      simp only [Prod.mk.injEq] at h
      obtain ⟨h1, h2⟩ := h
      subst h1; subst h2
      simp only [beq_iff_eq] at hc
      simp [hc]
    · rw [if_neg hc] at h
      simp only [Prod.mk.injEq] at h
      obtain ⟨h1, h2⟩ := h
      subst h1; subst h2; rfl

theorem stripNl_newline (r : List Char) : stripNl ('\n' :: r) = (true, r) := by
  simp [stripNl]

theorem stripNl_no_newline {r : List Char} (h : ∀ t, r ≠ '\n' :: t) :
    stripNl r = (false, r) := by
  cases r with
  | nil => rfl
  | cons c cs =>
    have hc : (c == '\n') = false := by
      cases hb : c == '\n' with
      | false => rfl
      | true =>
        simp only [beq_iff_eq] at hb
        exact absurd (show c :: cs = '\n' :: cs by rw [hb]) (h cs)
    simp [stripNl, hc]

theorem stripOne_sound {lo hi c : Char} {r rest : List Char}
    (h : stripOne lo hi r = some (c, rest)) :
    r = c :: rest ∧ (c == lo || c == hi) = true := by
  cases r with
  | nil => simp [stripOne] at h
  | cons c' cs =>
    simp only [stripOne] at h
    by_cases hc : (c' == lo || c' == hi) = true
    · rw [if_pos hc] at h
      simp only [Option.some.injEq, Prod.mk.injEq] at h
      obtain ⟨h1, h2⟩ := h
      subst h1; subst h2
      exact ⟨rfl, hc⟩
    · rw [if_neg hc] at h; simp at h

theorem stripOne_complete {lo hi c : Char} (rest : List Char)
    (h : (c == lo || c == hi) = true) :
    stripOne lo hi (c :: rest) = some (c, rest) := by
  simp [stripOne, h]

theorem stripUnd_sound {r rest : List Char} (h : stripUnd r = some rest) :
    r = '_' :: rest := by
  cases r with
  | nil => simp [stripUnd] at h
  | cons c cs =>
    simp only [stripUnd] at h
    by_cases hc : (c == '_') = true
    · rw [if_pos hc] at h
      simp only [Option.some.injEq] at h
      subst h
      simp only [beq_iff_eq] at hc
      rw [hc]
    · rw [if_neg hc] at h; simp at h

theorem stripUnd_complete (rest : List Char) : stripUnd ('_' :: rest) = some rest := by
  simp [stripUnd]

theorem spanD_sound (p : Char → Bool) :
    ∀ (r a b : List Char), spanD p r = (a, b) → r = a ++ b ∧ a.all p = true := by
  intro r
  induction r with
  | nil =>
    intro a b h
    simp only [spanD, Prod.mk.injEq] at h
    obtain ⟨h1, h2⟩ := h
    subst h1; subst h2
    exact ⟨rfl, rfl⟩
  | cons c cs ih =>
    intro a b h
    rw [spanD_cons] at h
    by_cases hc : p c = true
    · rw [if_pos hc] at h
      rcases hs : spanD p cs with ⟨a1, b1⟩
      rw [hs] at h
      simp only [Prod.mk.injEq] at h
      obtain ⟨h1, h2⟩ := h
      obtain ⟨hx1, hx2⟩ := ih a1 b1 hs
      subst h1; subst h2
      constructor
      · rw [hx1]; rfl
      · simp [hc, hx2]
    · rw [if_neg hc] at h
      simp only [Prod.mk.injEq] at h
      obtain ⟨h1, h2⟩ := h
      subst h1; subst h2
      exact ⟨rfl, rfl⟩

theorem spanD_append (p : Char → Bool) {a : List Char} (c : Char) (b : List Char)
    (ha : a.all p = true) (hc : p c = false) :
    spanD p (a ++ c :: b) = (a, c :: b) := by
  induction a with
  | nil => rw [List.nil_append, spanD_cons, hc]; rfl
  | cons x xs ih =>
    simp only [List.all_cons, Bool.and_eq_true] at ha
    rw [List.cons_append, spanD_cons, ha.1, ih ha.2]
    simp

theorem stripDigits_sound {r ds rest : List Char}
    (h : stripDigits r = some (ds, rest)) :
    r = ds ++ rest ∧ ds ≠ [] ∧ ds.all isDig = true := by
  unfold stripDigits at h
  rcases hs : spanD isDig r with ⟨a, b⟩
  rw [hs] at h
  simp only at h
  by_cases ha : a.isEmpty = true
  · rw [if_pos ha] at h; simp at h
  · rw [if_neg ha] at h
    simp only [Option.some.injEq, Prod.mk.injEq] at h
    obtain ⟨h1, h2⟩ := h
    obtain ⟨hx1, hx2⟩ := spanD_sound isDig r a b hs
    subst h1; subst h2
    exact ⟨hx1, by simpa [List.isEmpty_iff] using ha, hx2⟩

theorem stripDigits_complete {ds : List Char} (c : Char) (b : List Char)
    (hne : ds ≠ []) (hall : ds.all isDig = true) (hc : isDig c = false) :
    stripDigits (ds ++ c :: b) = some (ds, c :: b) := by
  unfold stripDigits
  rw [spanD_append isDig c b hall hc]
  simp [List.isEmpty_iff, hne]

theorem stripSample_sound {r ds rest : List Char}
    (h : stripSample r = some (ds, rest)) :
    r = ds ++ rest ∧ ds ≠ [] ∧ ds.all (fun c => !(c == '_')) = true := by
  unfold stripSample at h
  rcases hs : spanD (fun c => !(c == '_')) r with ⟨a, b⟩
  rw [hs] at h
  simp only at h
  by_cases ha : a.isEmpty = true
  · rw [if_pos ha] at h; simp at h
  · rw [if_neg ha] at h
    simp only [Option.some.injEq, Prod.mk.injEq] at h
    obtain ⟨h1, h2⟩ := h
    obtain ⟨hx1, hx2⟩ := spanD_sound (fun c => !(c == '_')) r a b hs
    subst h1; subst h2
    exact ⟨hx1, by simpa [List.isEmpty_iff] using ha, hx2⟩

theorem stripSample_complete {ds : List Char} (b : List Char)
    (hne : ds ≠ []) (hall : ds.all (fun c => !(c == '_')) = true) :
    stripSample (ds ++ '_' :: b) = some (ds, '_' :: b) := by
  unfold stripSample
  rw [spanD_append _ '_' b hall (by decide)]
  simp [List.isEmpty_iff, hne]

theorem checkHead_sound {r l : List Char} (h : checkHead r = some l) :
    l = r ∧ r ≠ [] ∧ r.all (fun d => !(d == '\n')) = true := by
  cases r with
  | nil => simp [checkHead] at h
  | cons c cs =>
    simp only [checkHead] at h
    by_cases hc : ((c :: cs).all fun d => !(d == '\n')) = true
    · rw [if_pos hc] at h
      simp only [Option.some.injEq] at h
      exact ⟨h.symm, by simp, hc⟩
    · rw [if_neg hc] at h; simp at h

theorem checkHead_complete {r : List Char} (hne : r ≠ [])
    (hall : r.all (fun d => !(d == '\n')) = true) : checkHead r = some r := by
  cases r with
  | nil => exact absurd rfl hne
  | cons c cs => simp [checkHead, hall]

theorem stripExtAux_nil (r : List Char) : stripExtAux [] r = none := rfl

theorem stripExtAux_cons_some {p : List CIChar} {r : List Char}
    {x : List Char × List Char} (ps : List (List CIChar))
    (h : matchCI p r = some x) : stripExtAux (p :: ps) r = some x := by
  simp only [stripExtAux, h]

theorem stripExtAux_cons_none {p : List CIChar} {r : List Char}
    (ps : List (List CIChar)) (h : matchCI p r = none) :
    stripExtAux (p :: ps) r = stripExtAux ps r := by
  simp only [stripExtAux, h]

theorem stripExtAux_sound :
    ∀ (pats : List (List CIChar)) (r e rest : List Char),
      stripExtAux pats r = some (e, rest) →
        r = e ++ rest ∧ ∃ p ∈ pats, ciOk e p = true := by
  intro pats
  induction pats with
  | nil => intro r e rest h; simp [stripExtAux] at h
  | cons p ps ih =>
    intro r e rest h
    cases h1 : matchCI p r with
    | some x =>
      rw [stripExtAux_cons_some ps h1] at h
      simp only [Option.some.injEq] at h
      subst h
      obtain ⟨ha, hb⟩ := matchCI_sound p r e rest h1
      exact ⟨ha, p, by simp, hb⟩
    | none =>
      rw [stripExtAux_cons_none ps h1] at h
      obtain ⟨ha, q, hq, hb⟩ := ih r e rest h
      exact ⟨ha, q, by simp [hq], hb⟩

theorem stripExt_sound {r e rest : List Char} (h : stripExt r = some (e, rest)) :
    r = e ++ rest ∧
      (ciOk e extFastqGz.reverse = true ∨ ciOk e extFqGz.reverse = true ∨
        ciOk e extFastq.reverse = true ∨ ciOk e extFq.reverse = true) := by
  obtain ⟨ha, q, hq, hb⟩ := stripExtAux_sound extPatsRev r e rest h
  refine ⟨ha, ?_⟩
  simp only [extPatsRev, List.mem_cons, List.not_mem_nil, or_false] at hq
  rcases hq with rfl | rfl | rfl | rfl
  · exact Or.inl hb
  · exact Or.inr (Or.inl hb)
  · exact Or.inr (Or.inr (Or.inl hb))
  · exact Or.inr (Or.inr (Or.inr hb))

theorem stripExt_complete {e : List Char} (rest : List Char)
    (h : ciOk e extFastqGz = true ∨ ciOk e extFqGz = true ∨
      ciOk e extFastq = true ∨ ciOk e extFq = true) :
    stripExt (e.reverse ++ rest) = some (e.reverse, rest) := by
  unfold stripExt extPatsRev
  rcases h with h | h | h | h
  · exact stripExtAux_cons_some _ (matchCI_complete rest (ciOk_rev h))
  · rw [stripExtAux_cons_none _
      (matchCI_clash rest (by decide : pairsClash extFqGz.reverse extFastqGz.reverse = true)
        (ciOk_rev h))]
    exact stripExtAux_cons_some _ (matchCI_complete rest (ciOk_rev h))
  · rw [stripExtAux_cons_none _
      (matchCI_clash rest (by decide : pairsClash extFastq.reverse extFastqGz.reverse = true)
        (ciOk_rev h))]
    rw [stripExtAux_cons_none _
      (matchCI_clash rest (by decide : pairsClash extFastq.reverse extFqGz.reverse = true)
        (ciOk_rev h))]
    exact stripExtAux_cons_some _ (matchCI_complete rest (ciOk_rev h))
  · rw [stripExtAux_cons_none _
      (matchCI_clash rest (by decide : pairsClash extFq.reverse extFastqGz.reverse = true)
        (ciOk_rev h))]
    rw [stripExtAux_cons_none _
      (matchCI_clash rest (by decide : pairsClash extFq.reverse extFqGz.reverse = true)
        (ciOk_rev h))]
    rw [stripExtAux_cons_none _
      (matchCI_clash rest (by decide : pairsClash extFq.reverse extFastq.reverse = true)
        (ciOk_rev h))]
    exact stripExtAux_cons_some _ (matchCI_complete rest (ciOk_rev h))

theorem flat_reverse (m : FastqMatch) :
    m.flat.reverse =
      (if m.trailNl then ['\n'] else []) ++
        (m.ext.reverse ++ (m.rdir :: m.readChar :: '_' ::
          (m.laneStr.reverse ++ (m.laneChar :: '_' ::
            (m.sample.reverse ++ ('_' :: m.pre.reverse)))))) := by
  cases h : m.trailNl <;>
    simp [FastqMatch.flat, h, List.reverse_append, List.append_assoc]

theorem fastqMatchRev_build (pre sample laneStr : List Char)
    (laneChar readChar rdir : Char) (ext : List Char) (b : Bool)
    (hpne : pre ≠ []) (hpnl : pre.all (fun c => !(c == '\n')) = true)
    (hsne : sample ≠ []) (hsu : sample.all (fun c => !(c == '_')) = true)
    (hlne : laneStr ≠ []) (hldig : laneStr.all isDig = true)
    (hlc : laneChar = 'l' ∨ laneChar = 'L')
    (hrc : readChar = 'r' ∨ readChar = 'R')
    (hrd : rdir = '1' ∨ rdir = '2')
    (hext : ciOk ext extFastqGz = true ∨ (ciOk ext extFqGz = true ∨
      (ciOk ext extFastq = true ∨ ciOk ext extFq = true))) :
    fastqMatchRev ((if b then ['\n'] else []) ++
        (ext.reverse ++ (rdir :: readChar :: '_' ::
          (laneStr.reverse ++ (laneChar :: '_' ::
            (sample.reverse ++ ('_' :: pre.reverse))))))) =
      some ⟨pre, sample, laneStr, laneChar, readChar, rdir, ext, b⟩ := by
  have hexthead : ∃ c t, ext.reverse = c :: t ∧ (c == '\n') = false := by
    rcases hext with h | h | h | h
    · have hsplit : extFastqGz = (extFastq ++ [('.', '.'), ('g', 'G')]) ++ [('z', 'Z')] := by
        decide
      rw [hsplit] at h
      obtain ⟨c, t, hrev, hc⟩ := ciOk_last_head h
      refine ⟨c, t, hrev, ?_⟩
      rcases (by simpa using hc : c = 'z' ∨ c = 'Z') with rfl | rfl <;> decide
    · have hsplit : extFqGz = (extFq ++ [('.', '.'), ('g', 'G')]) ++ [('z', 'Z')] := by
        decide
      rw [hsplit] at h
      obtain ⟨c, t, hrev, hc⟩ := ciOk_last_head h
      refine ⟨c, t, hrev, ?_⟩
      rcases (by simpa using hc : c = 'z' ∨ c = 'Z') with rfl | rfl <;> decide
    · have hsplit : extFastq =
          ([('.', '.'), ('f', 'F'), ('a', 'A'), ('s', 'S'), ('t', 'T')]) ++ [('q', 'Q')] := by
        decide
      rw [hsplit] at h
      obtain ⟨c, t, hrev, hc⟩ := ciOk_last_head h
      refine ⟨c, t, hrev, ?_⟩
      rcases (by simpa using hc : c = 'q' ∨ c = 'Q') with rfl | rfl <;> decide
    · have hsplit : extFq = ([('.', '.'), ('f', 'F')]) ++ [('q', 'Q')] := by decide
      rw [hsplit] at h
      obtain ⟨c, t, hrev, hc⟩ := ciOk_last_head h
      refine ⟨c, t, hrev, ?_⟩
      rcases (by simpa using hc : c = 'q' ∨ c = 'Q') with rfl | rfl <;> decide
  obtain ⟨c0, t0, hrev0, hc0⟩ := hexthead
  have hnl : stripNl ((if b then ['\n'] else []) ++
      (ext.reverse ++ (rdir :: readChar :: '_' ::
        (laneStr.reverse ++ (laneChar :: '_' ::
          (sample.reverse ++ ('_' :: pre.reverse))))))) =
      (b, ext.reverse ++ (rdir :: readChar :: '_' ::
        (laneStr.reverse ++ (laneChar :: '_' ::
          (sample.reverse ++ ('_' :: pre.reverse)))))) := by
    cases b with
    | true => rw [if_pos rfl]; exact stripNl_newline _
    | false =>
      rw [if_neg (by simp), List.nil_append]
      apply stripNl_no_newline
      intro t' hEq
      rw [hrev0, List.cons_append] at hEq
      injection hEq with hh _
      rw [hh] at hc0
      simp at hc0
  have hrdB : (rdir == '1' || rdir == '2') = true := by
    rcases hrd with rfl | rfl <;> decide
  have hrcB : (readChar == 'r' || readChar == 'R') = true := by
    rcases hrc with rfl | rfl <;> decide
  have hlcB : (laneChar == 'l' || laneChar == 'L') = true := by
    rcases hlc with rfl | rfl <;> decide
  have hlcD : isDig laneChar = false := by
    rcases hlc with rfl | rfl <;> decide
  simp only [fastqMatchRev]
  rw [hnl]
  dsimp only
  rw [stripExt_complete _ hext]
  rw [Option.some_bind]
  dsimp only
  rw [stripOne_complete _ hrdB]
  rw [Option.some_bind]
  dsimp only
  rw [stripOne_complete _ hrcB]
  rw [Option.some_bind]
  dsimp only
  rw [stripUnd_complete]
  rw [Option.some_bind]
  rw [stripDigits_complete laneChar _
    (by simpa [List.reverse_eq_nil_iff] using hlne)
    (by simpa [List.all_reverse] using hldig) hlcD]
  rw [Option.some_bind]
  dsimp only
  rw [stripOne_complete _ hlcB]
  rw [Option.some_bind]
  dsimp only
  rw [stripUnd_complete]
  rw [Option.some_bind]
  rw [stripSample_complete _
    (by simpa [List.reverse_eq_nil_iff] using hsne)
    (by simpa [List.all_reverse] using hsu)]
  rw [Option.some_bind]
  dsimp only
  rw [stripUnd_complete]
  rw [Option.some_bind]
  rw [checkHead_complete
    (by simpa [List.reverse_eq_nil_iff] using hpne)
    (by simpa [List.all_reverse] using hpnl)]
  rw [Option.map_some']
  simp [List.reverse_reverse]

theorem fastqMatchRev_complete (m : FastqMatch) (hwf : m.wf = true) :
    fastqMatchRev m.flat.reverse = some m := by
  obtain ⟨pre, sample, laneStr, laneChar, readChar, rdir, ext, trailNl⟩ := m
  simp only [FastqMatch.wf, Bool.and_eq_true, Bool.or_eq_true] at hwf
  obtain ⟨h1, h2, h3, h4, h5, h6, h7, h8, h9, h10⟩ := hwf
  rw [flat_reverse]
  dsimp only
  refine fastqMatchRev_build pre sample laneStr laneChar readChar rdir ext trailNl
    (by simpa [List.isEmpty_iff] using h1) h2
    (by simpa [List.isEmpty_iff] using h3) h4
    (by simpa [List.isEmpty_iff] using h5) h6
    (by simpa using h7) (by simpa using h8) (by simpa using h9) h10

theorem fastqMatchRev_sound {r : List Char} {m : FastqMatch}
    (h : fastqMatchRev r = some m) : r = m.flat.reverse ∧ m.wf = true := by
  unfold fastqMatchRev at h
  simp only [Option.bind_eq_some, Option.map_eq_some'] at h
  obtain ⟨⟨extRev, r2⟩, h1, ⟨rd, r3⟩, h2, ⟨rc, r4⟩, h3, r5, h4, ⟨digsRev, r6⟩, h5,
    ⟨lch, r7⟩, h6, r8, h7, ⟨sampRev, r9⟩, h8, r10, h9, preRev, h10, hm⟩ := h
  rcases hnl : stripNl r with ⟨b, r1⟩
  rw [hnl] at h1 hm
  dsimp only at h1 hm
  obtain ⟨he1, hd1⟩ := stripExt_sound h1
  obtain ⟨he2, hrd⟩ := stripOne_sound h2
  obtain ⟨he3, hrc⟩ := stripOne_sound h3
  have he4 := stripUnd_sound h4
  obtain ⟨he5, hdne, hdall⟩ := stripDigits_sound h5
  obtain ⟨he6, hlc⟩ := stripOne_sound h6
  have he7 := stripUnd_sound h7
  obtain ⟨he8, hsne, hsall⟩ := stripSample_sound h8
  have he9 := stripUnd_sound h9
  obtain ⟨he10, hpne, hpall⟩ := checkHead_sound h10
  subst hm
  subst he10
  subst he9
  subst he8
  subst he7
  subst he6
  subst he5
  subst he4
  subst he3
  subst he2
  subst he1
  have hr := stripNl_sound hnl
  constructor
  · rw [hr, flat_reverse]
    dsimp only
    simp [List.reverse_reverse, List.append_assoc]
  · simp only [FastqMatch.wf, Bool.and_eq_true, Bool.or_eq_true]
    refine ⟨?_, ?_, ?_, ?_, ?_, ?_, ?_, ?_, ?_, ?_⟩
    · simpa [List.isEmpty_iff, List.reverse_eq_nil_iff] using hpne
    · simpa [List.all_reverse] using hpall
    · simpa [List.isEmpty_iff, List.reverse_eq_nil_iff] using hsne
    · simpa [List.all_reverse] using hsall
    · simpa [List.isEmpty_iff, List.reverse_eq_nil_iff] using hdne
    · simpa [List.all_reverse] using hdall
    · simpa using hlc
    · simpa using hrc
    · simpa using hrd
    · rcases hd1 with hq | hq | hq | hq
      · exact Or.inl (by simpa [List.reverse_reverse] using ciOk_rev hq)
      · exact Or.inr (Or.inl (by simpa [List.reverse_reverse] using ciOk_rev hq))
      · exact Or.inr (Or.inr (Or.inl (by simpa [List.reverse_reverse] using ciOk_rev hq)))
      · exact Or.inr (Or.inr (Or.inr (by simpa [List.reverse_reverse] using ciOk_rev hq)))

/-- Full characterization of the Matcher: `FASTQ_RE.match` succeeds with
result `m` exactly when the filename is the span `m.flat` of a
well-formed `m`. -/
theorem fastqMatch_eq_some_iff (s : List Char) (m : FastqMatch) :
    fastqMatch s = some m ↔ (s = m.flat ∧ m.wf = true) := by
  constructor
  · intro h
    obtain ⟨h1, h2⟩ := fastqMatchRev_sound h
    exact ⟨by rw [← List.reverse_reverse s, h1, List.reverse_reverse], h2⟩
  · rintro ⟨rfl, hwf⟩
    exact fastqMatchRev_complete m hwf

/-! ## Filesystem model

Regular files are an association list from paths to byte contents;
directories are tracked as a list of paths so directory creation can be
spoken about.  `Store` operations model the POSIX behaviour the script
relies on: `open("wb")` truncates, `unlink` deletes, `shutil.move` to an
existing file path overwrites it. -/

/-- The regular files: an association list from resolved paths to contents. -/
abbrev Store := List (FPath × Bytes)

/-- Look up a file's contents. -/
def Store.readF : Store → FPath → Option Bytes
  | [], _ => none
  | (q, c) :: st, p => if q = p then some c else Store.readF st p

/-- Create a file or replace its contents. -/
def Store.writeF (st : Store) (p : FPath) (c : Bytes) : Store :=
  (p, c) :: st.filter (fun q => !(decide (q.1 = p)))

/-- Delete a file (`Path.unlink`). -/
def Store.eraseF (st : Store) (p : FPath) : Store :=
  st.filter (fun q => !(decide (q.1 = p)))

/-- The filesystem: regular files plus the set of existing directories. -/
structure FS where
  files : Store
  dirs : List FPath
deriving DecidableEq, Repr

/-- Read a file. -/
def FS.readFile (fs : FS) (p : FPath) : Option Bytes := fs.files.readF p

/-- Write (create or truncate) a file. -/
def FS.writeFile (fs : FS) (p : FPath) (c : Bytes) : FS :=
  ⟨fs.files.writeF p c, fs.dirs⟩

/-- Delete a file. -/
def FS.eraseFile (fs : FS) (p : FPath) : FS := ⟨fs.files.eraseF p, fs.dirs⟩

/-- All initial segments of a path, the directory chain
`mkdir(parents=True)` guarantees to exist afterwards. -/
def pathInits : FPath → List FPath
  | [] => [[]]
  | c :: cs => [] :: (pathInits cs).map (c :: ·)

/-- Record a directory if it does not exist yet. -/
def addDirOnce (ds : List FPath) (d : FPath) : List FPath :=
  if d ∈ ds then ds else ds ++ [d]

/-- `Path.mkdir(parents=True, exist_ok=True)`. -/
def FS.mkdirAll (fs : FS) (p : FPath) : FS :=
  ⟨fs.files, (pathInits p).foldl addDirOnce fs.dirs⟩

theorem readF_cons_self (a : FPath) (b : Bytes) (st : Store) :
    Store.readF ((a, b) :: st) a = some b := by
  simp [Store.readF]

theorem readF_cons_ne {a q : FPath} (b : Bytes) (st : Store) (h : a ≠ q) :
    Store.readF ((a, b) :: st) q = Store.readF st q := by
  simp [Store.readF, h]

theorem readF_writeF_self (st : Store) (p : FPath) (c : Bytes) :
    Store.readF (st.writeF p c) p = some c := by
  unfold Store.writeF
  exact readF_cons_self p c _

theorem readF_filter_ne {st : Store} {p q : FPath} (h : q ≠ p) :
    Store.readF (st.filter (fun r => !(decide (r.1 = p)))) q = Store.readF st q := by
  induction st with
  | nil => rfl
  | cons x xs ih =>
    rcases x with ⟨a, b⟩
    by_cases hx : a = p
    · rw [List.filter_cons_of_neg (by simp [hx])]
      rw [ih]
      have haq : a ≠ q := fun hh => h (hh.symm.trans hx)
      rw [readF_cons_ne b xs haq]
    · rw [List.filter_cons_of_pos (by simp [hx])]
      by_cases haq : a = q
      · subst haq
        rw [readF_cons_self, readF_cons_self]
      · rw [readF_cons_ne b _ haq, readF_cons_ne b xs haq, ih]

theorem readF_writeF_ne {st : Store} {p q : FPath} (c : Bytes) (h : q ≠ p) :
    Store.readF (st.writeF p c) q = Store.readF st q := by
  unfold Store.writeF
  rw [readF_cons_ne c _ (fun hh => h hh.symm)]
  exact readF_filter_ne h

theorem readF_eraseF_self (st : Store) (p : FPath) :
    Store.readF (st.eraseF p) p = none := by
  unfold Store.eraseF
  induction st with
  | nil => rfl
  | cons x xs ih =>
    rcases x with ⟨a, b⟩
    by_cases hx : a = p
    · rw [List.filter_cons_of_neg (by simp [hx])]
      exact ih
    · rw [List.filter_cons_of_pos (by simp [hx])]
      rw [readF_cons_ne b _ hx]
      exact ih

theorem readF_eraseF_ne {st : Store} {p q : FPath} (h : q ≠ p) :
    Store.readF (st.eraseF p) q = Store.readF st q :=
  readF_filter_ne h

theorem filter_key_idem (st : Store) (p : FPath) :
    (st.filter (fun q => !(decide (q.1 = p)))).filter (fun q => !(decide (q.1 = p))) =
      st.filter (fun q => !(decide (q.1 = p))) := by
  rw [List.filter_filter]
  simp

theorem writeF_writeF (st : Store) (p : FPath) (b c : Bytes) :
    (st.writeF p b).writeF p c = st.writeF p c := by
  unfold Store.writeF
  rw [List.filter_cons_of_neg (by simp)]
  rw [filter_key_idem]

theorem writeF_eraseF (st : Store) (p : FPath) (c : Bytes) :
    (st.eraseF p).writeF p c = st.writeF p c := by
  unfold Store.writeF Store.eraseF
  rw [filter_key_idem]

theorem readFile_writeFile_self (fs : FS) (p : FPath) (c : Bytes) :
    (fs.writeFile p c).readFile p = some c :=
  readF_writeF_self fs.files p c

theorem readFile_writeFile_ne (fs : FS) {p q : FPath} (c : Bytes) (h : q ≠ p) :
    (fs.writeFile p c).readFile q = fs.readFile q :=
  readF_writeF_ne c h

theorem readFile_eraseFile_self (fs : FS) (p : FPath) :
    (fs.eraseFile p).readFile p = none :=
  readF_eraseF_self fs.files p

theorem readFile_eraseFile_ne (fs : FS) {p q : FPath} (h : q ≠ p) :
    (fs.eraseFile p).readFile q = fs.readFile q :=
  readF_eraseF_ne h

theorem writeFile_writeFile (fs : FS) (p : FPath) (b c : Bytes) :
    (fs.writeFile p b).writeFile p c = fs.writeFile p c := by
  simp [FS.writeFile, writeF_writeF]

theorem mem_addDirOnce {ds : List FPath} {x d : FPath} :
    d ∈ addDirOnce ds x ↔ d ∈ ds ∨ d = x := by
  unfold addDirOnce
  by_cases hx : x ∈ ds
  · rw [if_pos hx]
    constructor
    · exact Or.inl
    · rintro (h | rfl)
      · exact h
      · exact hx
  · rw [if_neg hx]
    simp

theorem mem_foldl_addDirOnce :
    ∀ (l : List FPath) (ds : List FPath) (d : FPath),
      d ∈ l.foldl addDirOnce ds ↔ d ∈ ds ∨ d ∈ l := by
  intro l
  induction l with
  | nil => intro ds d; simp
  | cons x xs ih =>
    intro ds d
    rw [List.foldl_cons, ih, mem_addDirOnce]
    simp [List.mem_cons, or_assoc]

theorem mem_mkdirAll_dirs (fs : FS) (p d : FPath) :
    d ∈ (fs.mkdirAll p).dirs ↔ d ∈ fs.dirs ∨ d ∈ pathInits p := by
  exact mem_foldl_addDirOnce (pathInits p) fs.dirs d

/-! ## Entries, sorting and the Consolidator -/

/-- `FastqEntry` (source lines 29-32): a matched file and its lane number. -/
structure FastqEntry where
  path : FPath
  lane : Nat
deriving DecidableEq, Repr

/-- Stable insertion by lane: the new (earlier-discovered) entry goes in
front of every entry of equal or larger lane. -/
def insLane (e : FastqEntry) : List FastqEntry → List FastqEntry
  | [] => [e]
  | y :: ys => if e.lane ≤ y.lane then e :: y :: ys else y :: insLane e ys

/-- `sorted(files, key=lambda entry: entry.lane)`: Python's `sorted` is a
stable sort on the lane key; insertion sort with `insLane` realizes it. -/
def sortLane : List FastqEntry → List FastqEntry
  | [] => []
  | e :: es => insLane e (sortLane es)

/-- The copy loop of `concatenate`: read each source in full and append it
to the destination (which the open `dest_handle` keeps growing); a
missing source raises, modelled as `none`. -/
def concatLoop (dest : FPath) : FS → List FastqEntry → Option FS
  | f, [] => some f
  | f, e :: es =>
    match f.readFile e.path with
    | none => none
    | some c =>
      concatLoop dest (f.writeFile dest (((f.readFile dest).getD []) ++ c)) es

/-- `concatenate` (source lines 64-70): ensure the parent directory
exists, open the destination for binary write (truncating any existing
file), then copy every source in lane-sorted order. -/
def concatenate (files : List FastqEntry) (destination : FPath) (fs : FS) : Option FS :=
  concatLoop destination
    ((fs.mkdirAll destination.dropLast).writeFile destination [])
    (sortLane files)

/-- The `entry.path.unlink()` loop at the end of `relocate`: delete every
source, raising (modelled as `none`) if one is missing. -/
def unlinkAll : FS → List FastqEntry → Option FS
  | f, [] => some f
  | f, e :: es =>
    match f.readFile e.path with
    | none => none
    | some _ => unlinkAll (f.eraseFile e.path) es

/-- `relocate` (source lines 73-80): ensure the parent directory exists;
a single entry is moved with `shutil.move` (an overwriting rename,
modelled as read, erase, write), several entries are concatenated and
then all sources deleted. -/
def relocate (entries : List FastqEntry) (destination : FPath) (fs : FS) : Option FS :=
  let fs1 := fs.mkdirAll destination.dropLast
  match entries with
  | [e] =>
    (fs1.readFile e.path).map fun c => (fs1.eraseFile e.path).writeFile destination c
  | es =>
    match concatenate es destination fs1 with
    | none => none
    | some fs2 => unlinkAll fs2 es

/-- Read every entry's contents from a store, in order. -/
def mapReads (st : Store) : List FastqEntry → Option (List Bytes)
  | [] => some []
  | e :: es =>
    match st.readF e.path with
    | none => none
    | some c => (mapReads st es).map (c :: ·)

/-! ## Properties of the lane sort -/

theorem insLane_perm (e : FastqEntry) (l : List FastqEntry) :
    (insLane e l).Perm (e :: l) := by
  induction l with
  | nil => exact List.Perm.refl _
  | cons y ys ih =>
    by_cases h : e.lane ≤ y.lane
    · rw [insLane, if_pos h]
    · rw [insLane, if_neg h]
      exact (ih.cons y).trans (List.Perm.swap e y ys)

theorem sortLane_perm (l : List FastqEntry) : (sortLane l).Perm l := by
  induction l with
  | nil => exact List.Perm.refl _
  | cons e es ih => exact (insLane_perm e (sortLane es)).trans (ih.cons e)

theorem mem_sortLane {e : FastqEntry} {l : List FastqEntry} :
    e ∈ sortLane l ↔ e ∈ l :=
  (sortLane_perm l).mem_iff

theorem insLane_sorted {e : FastqEntry} {l : List FastqEntry}
    (h : l.Pairwise (fun a b => a.lane ≤ b.lane)) :
    (insLane e l).Pairwise (fun a b => a.lane ≤ b.lane) := by
  induction l with
  | nil => simp [insLane]
  | cons y ys ih =>
    rw [List.pairwise_cons] at h
    by_cases hle : e.lane ≤ y.lane
    · rw [insLane, if_pos hle, List.pairwise_cons]
      constructor
      · intro z hz
        rcases List.mem_cons.mp hz with rfl | hz'
        · exact hle
        · exact le_trans hle (h.1 z hz')
      · rw [List.pairwise_cons]
        exact h
    · rw [insLane, if_neg hle, List.pairwise_cons]
      constructor
      · intro z hz
        rcases (insLane_perm e ys).mem_iff.mp hz with hmem
        rcases List.mem_cons.mp hmem with rfl | hz'
        · omega
        · exact h.1 z hz'
      · exact ih h.2

theorem sortLane_sorted (l : List FastqEntry) :
    (sortLane l).Pairwise (fun a b => a.lane ≤ b.lane) := by
  induction l with
  | nil => simp [sortLane]
  | cons e es ih => exact insLane_sorted ih

theorem filter_insLane (n : Nat) (e : FastqEntry) (l : List FastqEntry) :
    (insLane e l).filter (fun x => x.lane == n) =
      (if e.lane == n then [e] else []) ++ l.filter (fun x => x.lane == n) := by
  induction l with
  | nil => cases h : e.lane == n <;> simp [insLane, List.filter_cons, List.filter_nil, h]
  | cons y ys ih =>
    by_cases hle : e.lane ≤ y.lane
    · rw [insLane, if_pos hle]
      cases he : e.lane == n <;> simp [List.filter_cons, he]
    · rw [insLane, if_neg hle]
      rw [List.filter_cons, List.filter_cons, ih]
      cases he : e.lane == n with
      | false => simp [he]
      | true =>
        have hy : (y.lane == n) = false := by
          simp only [beq_iff_eq] at he
          have : y.lane < e.lane := Nat.lt_of_not_le hle
          simp only [beq_eq_false_iff_ne, ne_eq]
          omega
        simp [he, hy]

theorem filter_sortLane (n : Nat) (l : List FastqEntry) :
    (sortLane l).filter (fun x => x.lane == n) = l.filter (fun x => x.lane == n) := by
  induction l with
  | nil => rfl
  | cons e es ih =>
    rw [sortLane, filter_insLane, ih, List.filter_cons]
    cases he : e.lane == n <;> simp [he]

/-! ## Properties of reading, concatenating and unlinking -/

theorem mapReads_eq_some {st : Store} :
    ∀ {l : List FastqEntry} {cs : List Bytes},
      mapReads st l = some cs ↔
        ((∀ e ∈ l, (Store.readF st e.path).isSome = true) ∧
          cs = l.map fun e => (Store.readF st e.path).getD []) := by
  intro l
  induction l with
  | nil =>
    intro cs
    rw [show mapReads st [] = some [] from rfl]
    simp only [Option.some.injEq, List.not_mem_nil, List.map_nil]
    constructor
    · intro h
      exact ⟨fun e he => absurd he (by simp), h.symm⟩
    · rintro ⟨_, rfl⟩
      rfl
  | cons e es ih =>
    intro cs
    cases hre : Store.readF st e.path with
    | none =>
      simp only [mapReads, hre]
      constructor
      · intro h; simp at h
      · rintro ⟨hall, rfl⟩
        have := hall e (by simp)
        rw [hre] at this
        simp at this
    | some c =>
      simp only [mapReads, hre, Option.map_eq_some']
      constructor
      · rintro ⟨cs', hcs', rfl⟩
        obtain ⟨hall, rfl⟩ := ih.mp hcs'
        refine ⟨?_, ?_⟩
        · intro x hx
          rcases List.mem_cons.mp hx with rfl | hx'
          · simp [hre]
          · exact hall x hx'
        · simp [hre]
      · rintro ⟨hall, rfl⟩
        refine ⟨es.map fun x => (Store.readF st x.path).getD [], ?_, ?_⟩
        · exact ih.mpr ⟨fun x hx => hall x (List.mem_cons_of_mem _ hx), rfl⟩
        · simp [hre]

theorem mapReads_isSome_iff {st : Store} {l : List FastqEntry} :
    (mapReads st l).isSome = true ↔ ∀ e ∈ l, (Store.readF st e.path).isSome = true := by
  cases h : mapReads st l with
  | none =>
    simp only [Option.isSome_none, Bool.false_eq_true, false_iff]
    intro hall
    have : mapReads st l = some (l.map fun e => (Store.readF st e.path).getD []) :=
      mapReads_eq_some.mpr ⟨hall, rfl⟩
    rw [h] at this
    exact Option.noConfusion this
  | some cs =>
    simp only [Option.isSome_some, true_iff]
    exact (mapReads_eq_some.mp h).1

theorem concatLoop_cons_some {f : FS} {e : FastqEntry} {c : Bytes}
    (dest : FPath) (es : List FastqEntry) (h : f.readFile e.path = some c) :
    concatLoop dest f (e :: es) =
      concatLoop dest (f.writeFile dest (((f.readFile dest).getD []) ++ c)) es := by
  rw [concatLoop, h]

theorem concatLoop_cons_none {f : FS} {e : FastqEntry}
    (dest : FPath) (es : List FastqEntry) (h : f.readFile e.path = none) :
    concatLoop dest f (e :: es) = none := by
  rw [concatLoop, h]

theorem mapReads_cons_some {st : Store} {e : FastqEntry} {c : Bytes}
    (es : List FastqEntry) (h : Store.readF st e.path = some c) :
    mapReads st (e :: es) = (mapReads st es).map (c :: ·) := by
  rw [mapReads, h]

theorem mapReads_cons_none {st : Store} {e : FastqEntry}
    (es : List FastqEntry) (h : Store.readF st e.path = none) :
    mapReads st (e :: es) = none := by
  rw [mapReads, h]

theorem concatLoop_spec (dest : FPath) :
    ∀ (l : List FastqEntry) (g : FS) (b : Bytes),
      (∀ e ∈ l, e.path ≠ dest) →
      concatLoop dest (g.writeFile dest b) l =
        (mapReads g.files l).map fun cs => g.writeFile dest (b ++ cs.flatten) := by
  intro l
  induction l with
  | nil =>
    intro g b hd
    simp [concatLoop, mapReads]
  | cons e es ih =>
    intro g b hd
    have hne : e.path ≠ dest := hd e (by simp)
    have hrw : (g.writeFile dest b).readFile e.path = Store.readF g.files e.path :=
      readFile_writeFile_ne g b hne
    cases hre : Store.readF g.files e.path with
    | none =>
      rw [concatLoop_cons_none dest es (hrw.trans hre), mapReads_cons_none es hre]
      rfl
    | some c =>
      rw [concatLoop_cons_some dest es (hrw.trans hre)]
      rw [readFile_writeFile_self, writeFile_writeFile]
      rw [show ((some b).getD [] : Bytes) = b from rfl]
      rw [ih g (b ++ c) (fun x hx => hd x (List.mem_cons_of_mem _ hx))]
      rw [mapReads_cons_some es hre]
      cases hcs : mapReads g.files es with
      | none => rfl
      | some cs' => simp [List.append_assoc]

theorem unlinkAll_spec :
    ∀ (l : List FastqEntry) (g g' : FS), unlinkAll g l = some g' →
      (∀ p, (∃ e ∈ l, e.path = p) → g'.readFile p = none) ∧
      (∀ p, (∀ e ∈ l, e.path ≠ p) → g'.readFile p = g.readFile p) ∧
      g'.dirs = g.dirs := by
  intro l
  induction l with
  | nil =>
    intro g g' h
    simp only [unlinkAll, Option.some.injEq] at h
    subst h
    refine ⟨?_, fun p _ => rfl, rfl⟩
    rintro p ⟨e, he, _⟩
    simp at he
  | cons e es ih =>
    intro g g' h
    rw [unlinkAll] at h
    cases hre : g.readFile e.path with
    | none => rw [hre] at h; exact Option.noConfusion h
    | some c =>
      rw [hre] at h
      obtain ⟨h1, h2, h3⟩ := ih (g.eraseFile e.path) g' h
      refine ⟨?_, ?_, ?_⟩
      · rintro p ⟨x, hx, rfl⟩
        rcases List.mem_cons.mp hx with rfl | hx'
        · by_cases hmem : ∃ y ∈ es, y.path = x.path
          · exact h1 _ hmem
          · rw [h2 _ (fun y hy hyp => hmem ⟨y, hy, hyp⟩)]
            exact readFile_eraseFile_self g x.path
        · exact h1 _ ⟨x, hx', rfl⟩
      · intro p hp
        rw [h2 p (fun y hy => hp y (List.mem_cons_of_mem _ hy))]
        exact readFile_eraseFile_ne g (fun hh => hp e (List.mem_cons_self e es) hh.symm)
      · rw [h3]; rfl

theorem relocate_one (e : FastqEntry) (dest : FPath) (fs : FS) :
    relocate [e] dest fs =
      ((fs.mkdirAll dest.dropLast).readFile e.path).map fun c =>
        ((fs.mkdirAll dest.dropLast).eraseFile e.path).writeFile dest c := rfl

theorem relocate_two (e1 e2 : FastqEntry) (es : List FastqEntry)
    (dest : FPath) (fs : FS) :
    relocate (e1 :: e2 :: es) dest fs =
      match concatenate (e1 :: e2 :: es) dest (fs.mkdirAll dest.dropLast) with
      | none => none
      | some fs2 => unlinkAll fs2 (e1 :: e2 :: es) := rfl

theorem sum_lengths_perm {l1 l2 : List FastqEntry} (h : l1.Perm l2)
    (f : FastqEntry → Bytes) :
    ((l1.map f).map List.length).sum = ((l2.map f).map List.length).sum := by
  have hs := (h.map (fun e => (f e).length)).sum_eq
  simpa [List.map_map, Function.comp] using hs

/-- What a successful multi-entry `relocate` produces: the destination
holds the concatenation, in lane-sorted order, of the sources' contents
as they were before the call, and every source path is gone. -/
theorem relocate_multi_spec {e1 e2 : FastqEntry} {es : List FastqEntry}
    {dest : FPath} {fs fs' : FS}
    (hd : ∀ e ∈ e1 :: e2 :: es, e.path ≠ dest)
    (hrun : relocate (e1 :: e2 :: es) dest fs = some fs') :
    ∃ cs, mapReads fs.files (sortLane (e1 :: e2 :: es)) = some cs ∧
      fs'.readFile dest = some cs.flatten ∧
      ∀ e ∈ e1 :: e2 :: es, fs'.readFile e.path = none := by
  rw [relocate_two] at hrun
  cases hcc : concatenate (e1 :: e2 :: es) dest (fs.mkdirAll dest.dropLast) with
  | none => rw [hcc] at hrun; exact Option.noConfusion hrun
  | some fs2 =>
    rw [hcc] at hrun
    unfold concatenate at hcc
    have hd' : ∀ e ∈ sortLane (e1 :: e2 :: es), e.path ≠ dest := fun e he =>
      hd e (mem_sortLane.mp he)
    rw [concatLoop_spec dest (sortLane (e1 :: e2 :: es)) _ [] hd'] at hcc
    rw [show (((fs.mkdirAll dest.dropLast).mkdirAll dest.dropLast).files) = fs.files
      from rfl] at hcc
    cases hm : mapReads fs.files (sortLane (e1 :: e2 :: es)) with
    | none => rw [hm] at hcc; exact Option.noConfusion hcc
    | some cs =>
      rw [hm, Option.map_some'] at hcc
      have hfs2 : fs2 =
          ((fs.mkdirAll dest.dropLast).mkdirAll dest.dropLast).writeFile dest
            ([] ++ cs.flatten) := by
        exact (Option.some.injEq _ _ ▸ hcc).symm
      obtain ⟨h1, h2, h3⟩ := unlinkAll_spec (e1 :: e2 :: es) fs2 fs' hrun
      refine ⟨cs, rfl, ?_, ?_⟩
      · rw [h2 dest (fun y hy => hd y hy), hfs2, readFile_writeFile_self]
        simp
      · intro e he
        exact h1 e.path ⟨e, he, rfl⟩

/-! ## The Scanner: embedding of `find_fastqs` -/

/-- One directory visited by `os.walk`: the raw `dirpath` (used to build
entry paths, e.g. a relative `./sub`), its resolved absolute form
(`Path(dirpath).resolve()`, used only by the exclusion test), and the
filenames it contains.  The walk list is ordered as `os.walk` yields
directories, which is deterministic for a fixed filesystem state. -/
structure WalkDir where
  dirRaw : FPath
  dirAbs : FPath
  filenames : List (List Char)
deriving DecidableEq, Repr

/-- `exclude_resolved in current_dir.parents`: for resolved paths this is
membership among the strict ancestors, i.e. the first argument is a
proper prefix of the second (a path is not one of its own parents). -/
def inParents : FPath → FPath → Bool
  | [], [] => false
  | [], _ :: _ => true
  | _ :: _, [] => false
  | a :: as, c :: cs => decide (a = c) && inParents as cs

/-- The directory-skip test of `find_fastqs` (source line 51). -/
def skipDir : Option FPath → FPath → Bool
  | none, _ => false
  | some e, cur => inParents e cur

/-- One emitted tuple of `find_fastqs`: `(sample, read, ext, entry)`. -/
structure ScanItem where
  sample : List Char
  rdir : Char
  ext : List Char
  entry : FastqEntry
deriving DecidableEq, Repr

/-- The per-directory loop body of `find_fastqs` (source lines 53-61):
match every filename and build entries from the raw dirpath and the
parsed lane number. -/
def scanDir (d : WalkDir) : List ScanItem :=
  d.filenames.filterMap fun name =>
    (fastqMatch name).map fun m =>
      ⟨m.sample, m.rdir, m.ext, ⟨d.dirRaw ++ [name], digitsToNat m.laneStr⟩⟩

/-- `find_fastqs` (source lines 47-61), over the walk of the root. -/
def find_fastqs : List WalkDir → Option FPath → List ScanItem
  | [], _ => []
  | d :: ds, exclude =>
    (if skipDir exclude d.dirAbs then [] else scanDir d) ++ find_fastqs ds exclude

/-! ## The Grouper and `main` -/

/-- A grouping key: `(sample, read, ext)`. -/
abbrev GroupKey := List Char × Char × List Char

/-- The key under which `main` files an emitted entry. -/
def itemKey (it : ScanItem) : GroupKey := (it.sample, it.rdir, it.ext)

/-- `groups[(sample, read, ext)].append(entry)` on an insertion-ordered
association list (a `defaultdict` preserves key insertion order). -/
def addEntry : List (GroupKey × List FastqEntry) → GroupKey → FastqEntry →
    List (GroupKey × List FastqEntry)
  | [], k, e => [(k, [e])]
  | (k', l) :: gs, k, e =>
    if k' = k then (k', l ++ [e]) :: gs else (k', l) :: addEntry gs k e

/-- The grouping loop of `main` (source lines 92-94). -/
def buildGroupsAux (gs : List (GroupKey × List FastqEntry)) :
    List ScanItem → List (GroupKey × List FastqEntry)
  | [] => gs
  | it :: its => buildGroupsAux (addEntry gs (itemKey it) it.entry) its

/-- The finished groups mapping. -/
def buildGroups (its : List ScanItem) : List (GroupKey × List FastqEntry) :=
  buildGroupsAux [] its

/-- Lookup of a key's entry list in the groups mapping. -/
def findGroup : List (GroupKey × List FastqEntry) → GroupKey → Option (List FastqEntry)
  | [], _ => none
  | (k', l) :: gs, k => if k' = k then some l else findGroup gs k

/-- The destination `outdir / sample / f"<sample>_R<read><ext>"`
(source line 101). -/
def destPath (odir : FPath) (k : GroupKey) : FPath :=
  odir ++ [k.1, k.1 ++ '_' :: 'R' :: k.2.1 :: k.2.2]

/-- The diagnostic of the missing-output-directory error (source line 86). -/
def errNoOutdir : List Char :=
  "Error: OUTDIR is not set and --outdir was not provided.".data

/-- The diagnostic of the nothing-matched error (source line 97). -/
def errNoMatch : List Char :=
  "No FASTQ files matched the expected pattern.".data

/-- The observable outcome of `main`: the returned exit code, the final
filesystem, and the diagnostic printed to stderr, if any. -/
structure MainRes where
  exitCode : Nat
  fsOut : FS
  errOut : Option (List Char)
deriving DecidableEq, Repr

/-- `if not args.outdir`: the parsed value is `None` when neither the
`--outdir` flag nor the `OUTDIR` variable is set; an empty string is
also falsy. -/
def outdirMissing : Option (List Char) → Bool
  | none => true
  | some s => s.isEmpty

/-- The consolidation loop of `main` (source lines 100-102), in group
insertion order. -/
def consolidateAll (odir : FPath) : FS → List (GroupKey × List FastqEntry) → Option FS
  | f, [] => some f
  | f, (k, es) :: gs =>
    match relocate es (destPath odir k) f with
    | none => none
    | some f' => consolidateAll odir f' gs

/-- `main` (source lines 83-104).  `outdirRaw` is the parsed option value
(`--outdir` flag, falling back to the `OUTDIR` variable, `none` when
neither is set); `odir` is its resolved form (`expanduser().resolve()`
is environment dependent, so the resolution result is passed in);
`walk` is the `os.walk` output for the current directory; `fs` the
filesystem.  A `none` result models an uncaught I/O error aborting the
run. -/
def runMain (outdirRaw : Option (List Char)) (odir : FPath) (walk : List WalkDir)
    (fs : FS) : Option MainRes :=
  if outdirMissing outdirRaw then some ⟨1, fs, some errNoOutdir⟩
  else if buildGroups (find_fastqs walk (some odir)) = [] then
    some ⟨1, fs.mkdirAll odir, some errNoMatch⟩
  else
    (consolidateAll odir (fs.mkdirAll odir)
      (buildGroups (find_fastqs walk (some odir)))).map fun f => ⟨0, f, none⟩

/-! ## Properties of the Grouper -/

/-- The entry list a key ought to map to: the entries of the scanned
items carrying that key, in scan order; `none` when there are none.
Stated for comparison with `findGroup ∘ buildGroups`. -/
def specGroup (its : List ScanItem) (k : GroupKey) : Option (List FastqEntry) :=
  match its.filter fun it => decide (itemKey it = k) with
  | [] => none
  | l => some (l.map (·.entry))

theorem findGroup_addEntry (gs : List (GroupKey × List FastqEntry))
    (k k' : GroupKey) (e : FastqEntry) :
    findGroup (addEntry gs k' e) k =
      if k' = k then
        match findGroup gs k with
        | some l => some (l ++ [e])
        | none => some [e]
      else findGroup gs k := by
  induction gs with
  | nil => by_cases h : k' = k <;> simp [addEntry, findGroup, h]
  | cons g gs ih =>
    rcases g with ⟨k'', l⟩
    by_cases h1 : k'' = k'
    · subst h1
      by_cases h2 : k'' = k
      · subst h2
        simp [addEntry, findGroup]
      · simp [addEntry, findGroup, h2]
    · by_cases h2 : k'' = k
      · subst h2
        have h1' : ¬ k' = k'' := fun hh => h1 hh.symm
        simp [addEntry, findGroup, h1, h1']
      · simp [addEntry, findGroup, h1, h2, ih]

theorem buildGroupsAux_findGroup :
    ∀ (its : List ScanItem) (gs : List (GroupKey × List FastqEntry)) (k : GroupKey),
      findGroup (buildGroupsAux gs its) k =
        match findGroup gs k with
        | some l =>
          some (l ++ (its.filter fun it => decide (itemKey it = k)).map (·.entry))
        | none => specGroup its k := by
  intro its
  induction its with
  | nil =>
    intro gs k
    cases h : findGroup gs k <;>
      simp [buildGroupsAux, specGroup, h, List.filter_nil]
  | cons it its ih =>
    intro gs k
    rw [show buildGroupsAux gs (it :: its) =
      buildGroupsAux (addEntry gs (itemKey it) it.entry) its from rfl]
    rw [ih, findGroup_addEntry]
    by_cases hk : itemKey it = k
    · rw [if_pos hk]
      cases h : findGroup gs k with
      | some l => simp [h, List.filter_cons, hk, specGroup]
      | none => simp [h, List.filter_cons, hk, specGroup]
    · rw [if_neg hk]
      cases h : findGroup gs k with
      | some l => simp [h, List.filter_cons, hk]
      | none => simp [h, List.filter_cons, hk, specGroup]

theorem findGroup_buildGroups (its : List ScanItem) (k : GroupKey) :
    findGroup (buildGroups its) k = specGroup its k := by
  rw [buildGroups, buildGroupsAux_findGroup]
  rfl

theorem addEntry_ne_nil (gs : List (GroupKey × List FastqEntry))
    (k : GroupKey) (e : FastqEntry) : addEntry gs k e ≠ [] := by
  cases gs with
  | nil => simp [addEntry]
  | cons g gs =>
    rcases g with ⟨k', l⟩
    by_cases h : k' = k <;> simp [addEntry, h]

theorem buildGroupsAux_eq_nil :
    ∀ (its : List ScanItem) (gs : List (GroupKey × List FastqEntry)),
      buildGroupsAux gs its = [] → gs = [] ∧ its = [] := by
  intro its
  induction its with
  | nil => intro gs h; exact ⟨h, rfl⟩
  | cons it its ih =>
    intro gs h
    rw [show buildGroupsAux gs (it :: its) =
      buildGroupsAux (addEntry gs (itemKey it) it.entry) its from rfl] at h
    obtain ⟨h1, h2⟩ := ih _ h
    exact absurd h1 (addEntry_ne_nil _ _ _)

theorem buildGroups_eq_nil_iff (its : List ScanItem) :
    buildGroups its = [] ↔ its = [] := by
  constructor
  · intro h
    exact (buildGroupsAux_eq_nil its [] h).2
  · rintro rfl
    rfl

theorem destPath_inj (odir : FPath) (k1 k2 : GroupKey) :
    destPath odir k1 = destPath odir k2 ↔ k1 = k2 := by
  constructor
  · intro h
    rcases k1 with ⟨s1, r1, e1⟩
    rcases k2 with ⟨s2, r2, e2⟩
    unfold destPath at h
    have h2 := List.append_cancel_left h
    injection h2 with hs htail
    subst hs
    injection htail with hf _
    have h3 := List.append_cancel_left hf
    injection h3 with _ h4
    injection h4 with _ h5
    injection h5 with hr he
    subst hr
    subst he
    rfl
  · rintro rfl
    rfl

theorem relocate_nil (dest : FPath) (fs : FS) :
    relocate [] dest fs =
      match concatenate [] dest (fs.mkdirAll dest.dropLast) with
      | none => none
      | some fs2 => unlinkAll fs2 [] := rfl

theorem store_write_erase_write (st : Store) (p q : FPath) (old c : Bytes)
    (h : q ≠ p) :
    Store.writeF (Store.eraseF (Store.writeF st p old) q) p c =
      Store.writeF (Store.eraseF (Store.eraseF st p) q) p c := by
  unfold Store.writeF Store.eraseF
  rw [List.filter_cons_of_pos (by simp [Ne.symm h])]
  rw [List.filter_cons_of_neg (by simp)]

theorem concatLoop_dirs (dest : FPath) :
    ∀ (l : List FastqEntry) (f f' : FS),
      concatLoop dest f l = some f' → f'.dirs = f.dirs := by
  intro l
  induction l with
  | nil =>
    intro f f' h
    simp only [concatLoop, Option.some.injEq] at h
    subst h
    rfl
  | cons e es ih =>
    intro f f' h
    cases hre : f.readFile e.path with
    | none => rw [concatLoop_cons_none dest es hre] at h; exact Option.noConfusion h
    | some c =>
      rw [concatLoop_cons_some dest es hre] at h
      exact (ih _ _ h).trans rfl

/-- Every successful `relocate` establishes the destination's parent
directory chain: both its branches begin with
`destination.parent.mkdir(parents=True, exist_ok=True)` (source lines 65
and 74), and no later step removes a directory, so afterwards every
initial segment of the destination's parent exists. -/
theorem relocate_dirs (es : List FastqEntry) (dest : FPath) (fs fs' : FS)
    (hrun : relocate es dest fs = some fs') (d : FPath)
    (hd : d ∈ pathInits dest.dropLast) : d ∈ fs'.dirs := by
  have hd1 : d ∈ (fs.mkdirAll dest.dropLast).dirs :=
    (mem_mkdirAll_dirs fs dest.dropLast d).mpr (Or.inr hd)
  have hmulti : ∀ (l : List FastqEntry),
      (match concatenate l dest (fs.mkdirAll dest.dropLast) with
        | none => none
        | some fs2 => unlinkAll fs2 l) = some fs' → d ∈ fs'.dirs := by
    intro l hrun2
    cases hcc : concatenate l dest (fs.mkdirAll dest.dropLast) with
    | none => rw [hcc] at hrun2; exact Option.noConfusion hrun2
    | some fs2 =>
      rw [hcc] at hrun2
      have h2 : fs2.dirs =
          ((fs.mkdirAll dest.dropLast).mkdirAll dest.dropLast).dirs := by
        unfold concatenate at hcc
        exact (concatLoop_dirs dest _ _ _ hcc).trans rfl
      have h3 := (unlinkAll_spec l fs2 fs' hrun2).2.2
      rw [h3, h2]
      exact (mem_mkdirAll_dirs _ dest.dropLast d).mpr (Or.inl hd1)
  cases es with
  | nil => exact hmulti [] hrun
  | cons e1 rest =>
    cases rest with
    | nil =>
      rw [relocate_one] at hrun
      cases hre : (fs.mkdirAll dest.dropLast).readFile e1.path with
      | none => rw [hre] at hrun; exact Option.noConfusion hrun
      | some c =>
        rw [hre, Option.map_some'] at hrun
        have hfs' : fs' =
            ((fs.mkdirAll dest.dropLast).eraseFile e1.path).writeFile dest c :=
          (Option.some.injEq _ _ ▸ hrun).symm
        subst hfs'
        exact hd1
    | cons e2 es2 => exact hmulti (e1 :: e2 :: es2) hrun

/-! ## Settling the claims -/

/-- Claim C1, counterexample.  The skip test `exclude_resolved in
current_dir.parents` holds only for strict descendants of the excluded
directory, never for the excluded directory itself, so the resolved
output directory is scanned and a matching file directly inside it is
emitted (and would then be consolidated away). -/
theorem scanner_emits_file_in_outdir_root :
    find_fastqs
        [⟨["out".data], ["out".data], ["x_A_L001_R1.fastq".data]⟩]
        (some ["out".data]) =
      [⟨"A".data, '1', ".fastq".data,
        ⟨["out".data, "x_A_L001_R1.fastq".data], 1⟩⟩] := by
  decide

/-- Claim C1, amended.  Directories that are strict descendants of the
excluded (resolved output) directory contribute nothing to the Scanner:
removing all of them from the walk leaves the emitted entries unchanged,
so no file in a strict subdirectory of the output directory is ever
emitted, moved or deleted.  (The output directory itself is scanned; see
the counterexample.) -/
theorem scanner_skips_strict_descendants (walk : List WalkDir) (e : FPath) :
    find_fastqs walk (some e) =
      find_fastqs (walk.filter fun d => !(inParents e d.dirAbs)) (some e) := by
  induction walk with
  | nil => rfl
  | cons d ds ih =>
    rw [show find_fastqs (d :: ds) (some e) =
      (if skipDir (some e) d.dirAbs then [] else scanDir d) ++ find_fastqs ds (some e)
      from rfl]
    cases h : inParents e d.dirAbs with
    | true =>
      rw [List.filter_cons_of_neg (by simp [h])]
      rw [show skipDir (some e) d.dirAbs = inParents e d.dirAbs from rfl, h]
      rw [ih]
      rfl
    | false =>
      rw [List.filter_cons_of_pos (by simp [h])]
      rw [show find_fastqs (d :: ds.filter fun d => !(inParents e d.dirAbs)) (some e) =
        (if skipDir (some e) d.dirAbs then [] else scanDir d) ++
          find_fastqs (ds.filter fun d => !(inParents e d.dirAbs)) (some e) from rfl]
      rw [ih]

/-- The matching rule in the words of claim C3: the filename ends with
`_<sample>_L<digits>_R<1|2><ext>` (any leading part `t`, possibly
empty), the sample nonempty and without underscore, one or more decimal
digits, the extension one of the four, everything matched
case-insensitively.  Stated from the claim for comparison with the
implementation. -/
def claimEndsWithPattern (s : List Char) : Prop :=
  ∃ (t smp dg ex : List Char) (lch rch rd : Char),
    s = t ++ '_' :: smp ++ '_' :: lch :: dg ++ '_' :: rch :: rd :: ex ∧
    smp ≠ [] ∧ smp.all (fun c => !(c == '_')) = true ∧
    dg ≠ [] ∧ dg.all isDig = true ∧
    (lch = 'L' ∨ lch = 'l') ∧ (rch = 'R' ∨ rch = 'r') ∧
    (rd = '1' ∨ rd = '2') ∧
    (ciOk ex extFastqGz = true ∨ ciOk ex extFqGz = true ∨
      ciOk ex extFastq = true ∨ ciOk ex extFq = true)

/-- Claim C3, counterexample.  `_A_L001_R1.fastq` ends with the claimed
pattern (sample `A`, lane `001`, read `1`, extension `.fastq`), yet the
Matcher rejects it: the pattern's first group `.+` demands at least one
character before that suffix. -/
theorem matcher_rejects_pattern_shaped_name :
    claimEndsWithPattern "_A_L001_R1.fastq".data ∧
      fastqMatch "_A_L001_R1.fastq".data = none := by
  constructor
  · refine ⟨[], "A".data, "001".data, ".fastq".data, 'L', 'R', '1',
      ?_, ?_, ?_, ?_, ?_, ?_, ?_, ?_, ?_⟩ <;> decide
  · decide

/-- Claim C3, amended.  The Matcher accepts a filename exactly when it is
the span `m.flat` of a well-formed match `m`: a nonempty newline-free
leading part, `_`, a nonempty underscore-free sample, `_L` (either
case), one or more digits, `_R` (either case), `1` or `2`, one of the
four extensions (case-insensitive), optionally followed by one trailing
newline; the extracted fields are exactly the corresponding substrings
of the filename. -/
theorem matcher_accepts_iff (s : List Char) (m : FastqMatch) :
    fastqMatch s = some m ↔ (s = m.flat ∧ m.wf = true) :=
  fastqMatch_eq_some_iff s m

/-- Claim C6.  Grouping is a pure function of the scanned items' keys:
every key's group holds exactly the entries of the items carrying that
key, in scan order and regardless of directory; the destination path is
`<outdir>/<sample>/<sample>_R<read><ext>`, distinct keys giving distinct
destinations; and consolidating a group to its destination creates the
intermediate directories as needed: after a successful `relocate`, every
initial segment of the destination's parent directory exists. -/
theorem grouping_key_and_destination (its : List ScanItem) (odir : FPath)
    (k k1 k2 : GroupKey) (es : List FastqEntry) (fs fs' : FS) (dd : FPath) :
    findGroup (buildGroups its) k = specGroup its k ∧
      (destPath odir k1 = destPath odir k2 ↔ k1 = k2) ∧
      destPath odir k = odir ++ [k.1, k.1 ++ "_R".data ++ k.2.1 :: k.2.2] ∧
      (relocate es (destPath odir k) fs = some fs' →
        dd ∈ pathInits ((destPath odir k).dropLast) → dd ∈ fs'.dirs) :=
  ⟨findGroup_buildGroups its k, destPath_inj odir k1 k2, by
    rw [show ("_R".data : List Char) = ['_', 'R'] from rfl]
    simp [destPath],
    fun hrun hdd => relocate_dirs es (destPath odir k) fs fs' hrun dd hdd⟩

/-- Claim C6, witness: consolidating a single-entry group of sample `A`
into `out` creates the intermediate directory `out/A`. -/
theorem grouping_key_and_destination_witness :
    findGroup (buildGroups []) ("A".data, '1', ".fastq".data) =
        specGroup [] ("A".data, '1', ".fastq".data) ∧
      (destPath ["out".data] ("A".data, '1', ".fastq".data) =
          destPath ["out".data] ("A".data, '1', ".fastq".data) ↔
        ("A".data, '1', ".fastq".data) = (("A".data, '1', ".fastq".data) : GroupKey)) ∧
      destPath ["out".data] ("A".data, '1', ".fastq".data) =
        ["out".data] ++ ["A".data, "A".data ++ "_R".data ++ '1' :: ".fastq".data] ∧
      ["out".data, "A".data] ∈
        (FS.mk [([['o', 'u', 't'], ['A'],
            ['A', '_', 'R', '1', '.', 'f', 'a', 's', 't', 'q']], [7])]
          [[], [['o', 'u', 't']], [['o', 'u', 't'], ['A']]]).dirs :=
  have h := grouping_key_and_destination [] ["out".data]
    ("A".data, '1', ".fastq".data) ("A".data, '1', ".fastq".data)
    ("A".data, '1', ".fastq".data) [⟨[['s']], 1⟩]
    (FS.mk [([['s']], [7])] [])
    (FS.mk [([['o', 'u', 't'], ['A'],
        ['A', '_', 'R', '1', '.', 'f', 'a', 's', 't', 'q']], [7])]
      [[], [['o', 'u', 't']], [['o', 'u', 't'], ['A']]])
    ["out".data, "A".data]
  ⟨h.1, h.2.1, h.2.2.1, h.2.2.2 (by decide) (by decide)⟩

/-- Claim C7.  With no `--outdir` flag and no `OUTDIR` variable, `main`
prints the configuration diagnostic to stderr and returns exit code 1
with the filesystem untouched. -/
theorem missing_outdir_exits_one (outdirRaw : Option (List Char)) (odir : FPath)
    (walk : List WalkDir) (fs : FS) (h : outdirRaw = none) :
    runMain outdirRaw odir walk fs = some ⟨1, fs, some errNoOutdir⟩ := by
  subst h
  rw [runMain, if_pos (show outdirMissing none = true from rfl)]

/-- Claim C7, witness. -/
theorem missing_outdir_exits_one_witness :
    runMain none [] [] ⟨[], []⟩ = some ⟨1, ⟨[], []⟩, some errNoOutdir⟩ :=
  missing_outdir_exits_one none [] [] ⟨[], []⟩ rfl

/-- Claim C8.  With an output directory configured: if the scan matches
nothing, `main` prints the no-match diagnostic and exits 1, the files
unchanged and the directories extended by exactly the output root chain;
if at least one file matched and the run completes, it exits 0 with no
diagnostic. -/
theorem scan_outcome_exit_codes (outdirRaw : Option (List Char)) (odir : FPath)
    (walk : List WalkDir) (fs : FS) (d : FPath) (res : MainRes)
    (hset : outdirMissing outdirRaw = false) :
    (find_fastqs walk (some odir) = [] →
      runMain outdirRaw odir walk fs = some ⟨1, fs.mkdirAll odir, some errNoMatch⟩ ∧
      (fs.mkdirAll odir).files = fs.files ∧
      (d ∈ (fs.mkdirAll odir).dirs ↔ d ∈ fs.dirs ∨ d ∈ pathInits odir)) ∧
    (find_fastqs walk (some odir) ≠ [] →
      runMain outdirRaw odir walk fs = some res →
      res.exitCode = 0 ∧ res.errOut = none) := by
  constructor
  · intro hempty
    refine ⟨?_, rfl, mem_mkdirAll_dirs fs odir d⟩
    rw [runMain, if_neg (by simp [hset]),
      if_pos (by rw [(buildGroups_eq_nil_iff _).mpr hempty])]
  · intro hne hrun
    rw [runMain, if_neg (by simp [hset]),
      if_neg (fun hh => hne ((buildGroups_eq_nil_iff _).mp hh))] at hrun
    cases hca : consolidateAll odir (fs.mkdirAll odir)
        (buildGroups (find_fastqs walk (some odir))) with
    | none => rw [hca] at hrun; exact Option.noConfusion hrun
    | some f =>
      rw [hca, Option.map_some'] at hrun
      have hres : (⟨0, f, none⟩ : MainRes) = res := Option.some.injEq _ _ ▸ hrun
      rw [← hres]
      exact ⟨rfl, rfl⟩

/-- Claim C8, witness: an empty scan exits 1 having only created the
output root; a scan with one match runs to completion and exits 0. -/
theorem scan_outcome_exit_codes_witness :
    (runMain (some "out".data) ["out".data] [] ⟨[], []⟩ =
        some ⟨1, FS.mkdirAll ⟨[], []⟩ ["out".data], some errNoMatch⟩ ∧
      (FS.mkdirAll ⟨[], []⟩ ["out".data]).files = (⟨[], []⟩ : FS).files ∧
      (["out".data] ∈ (FS.mkdirAll ⟨[], []⟩ ["out".data]).dirs ↔
        ["out".data] ∈ (⟨[], []⟩ : FS).dirs ∨ ["out".data] ∈ pathInits ["out".data])) ∧
    ((⟨0, ⟨[([['o', 'u', 't'], ['A'],
        ['A', '_', 'R', '1', '.', 'f', 'a', 's', 't', 'q']], [9])],
        [[], [['o', 'u', 't']], [['o', 'u', 't'], ['A']]]⟩, none⟩ : MainRes).exitCode = 0 ∧
      ((⟨0, ⟨[([['o', 'u', 't'], ['A'],
        ['A', '_', 'R', '1', '.', 'f', 'a', 's', 't', 'q']], [9])],
        [[], [['o', 'u', 't']], [['o', 'u', 't'], ['A']]]⟩, none⟩ : MainRes).errOut = none)) :=
  ⟨(scan_outcome_exit_codes (some "out".data) ["out".data] [] ⟨[], []⟩
      ["out".data] ⟨1, ⟨[], []⟩, none⟩ (by decide)).1 (by decide),
    (scan_outcome_exit_codes (some "out".data) ["out".data]
      [⟨[['.']], [['c'], ['w']], ["x_A_L001_R1.fastq".data]⟩]
      ⟨[([['.'], "x_A_L001_R1.fastq".data], [9])], []⟩
      ["out".data]
      ⟨0, ⟨[([['o', 'u', 't'], ['A'],
        ['A', '_', 'R', '1', '.', 'f', 'a', 's', 't', 'q']], [9])],
        [[], [['o', 'u', 't']], [['o', 'u', 't'], ['A']]]⟩, none⟩
      (by decide)).2 (by decide) (by decide)⟩

/-- Claim C2.  For a group of more than one entry whose source paths are
distinct from the destination (as in the program, where sources are
found outside the output subtree while the destination lies inside it),
a successful `relocate` leaves no source path on disk and gives the
destination a size equal to the sum of the source sizes. -/
theorem multi_entry_removes_sources_and_sums_sizes
    (entries : List FastqEntry) (dest : FPath) (fs fs' : FS) (e : FastqEntry)
    (hlen : 2 ≤ entries.length) (hmem : e ∈ entries)
    (hd : ∀ x ∈ entries, x.path ≠ dest)
    (hrun : relocate entries dest fs = some fs') :
    fs'.readFile e.path = none ∧
      (fs'.readFile dest).map List.length =
        (mapReads fs.files entries).map fun cs => (cs.map List.length).sum := by
  cases entries with
  | nil => simp at hlen
  | cons e1 rest =>
    cases rest with
    | nil => simp at hlen
    | cons e2 es =>
      obtain ⟨cs, hm, hdest, hsrc⟩ := relocate_multi_spec hd hrun
      refine ⟨hsrc e hmem, ?_⟩
      obtain ⟨hall, hcs⟩ := mapReads_eq_some.mp hm
      have hallOrig : ∀ x ∈ e1 :: e2 :: es,
          (Store.readF fs.files x.path).isSome = true :=
        fun x hx => hall x (mem_sortLane.mpr hx)
      have hmOrig : mapReads fs.files (e1 :: e2 :: es) =
          some ((e1 :: e2 :: es).map fun x => (Store.readF fs.files x.path).getD []) :=
        mapReads_eq_some.mpr ⟨hallOrig, rfl⟩
      rw [hdest, hmOrig, Option.map_some', Option.map_some']
      congr 1
      rw [hcs, List.length_flatten]
      exact sum_lengths_perm (sortLane_perm _) _

/-- Claim C2, witness: two lanes of sizes 2 and 1 produce a destination
of size 3 and both sources disappear. -/
theorem multi_entry_removes_sources_and_sums_sizes_witness :
    (FS.mk [([['o'], ['d']], [20, 10, 11])] [[], [['o']]]).readFile [['a']] = none ∧
      ((FS.mk [([['o'], ['d']], [20, 10, 11])] [[], [['o']]]).readFile
          [['o'], ['d']]).map List.length =
        (mapReads (FS.mk [([['a']], [10, 11]), ([['b']], [20])] []).files
            [⟨[['a']], 2⟩, ⟨[['b']], 1⟩]).map fun cs => (cs.map List.length).sum :=
  multi_entry_removes_sources_and_sums_sizes
    [⟨[['a']], 2⟩, ⟨[['b']], 1⟩] [['o'], ['d']]
    (FS.mk [([['a']], [10, 11]), ([['b']], [20])] [])
    (FS.mk [([['o'], ['d']], [20, 10, 11])] [[], [['o']]])
    ⟨[['a']], 2⟩
    (by decide) (by decide) (by decide) (by decide)

/-- Claim C4.  A successful multi-entry `relocate` writes exactly the
concatenation, with no delimiters, of the sources' contents in the
stable lane order to the destination: the order is sorted by lane
number, and entries of equal lane keep their first-seen order. -/
theorem multi_entry_concatenates_in_lane_order
    (entries : List FastqEntry) (dest : FPath) (fs fs' : FS) (n : Nat)
    (hlen : 2 ≤ entries.length)
    (hd : ∀ x ∈ entries, x.path ≠ dest)
    (hrun : relocate entries dest fs = some fs') :
    fs'.readFile dest = (mapReads fs.files (sortLane entries)).map List.flatten ∧
      List.Pairwise (fun a b => a.lane ≤ b.lane) (sortLane entries) ∧
      (sortLane entries).filter (fun x => x.lane == n) =
        entries.filter (fun x => x.lane == n) := by
  cases entries with
  | nil => simp at hlen
  | cons e1 rest =>
    cases rest with
    | nil => simp at hlen
    | cons e2 es =>
      obtain ⟨cs, hm, hdest, hsrc⟩ := relocate_multi_spec hd hrun
      refine ⟨?_, sortLane_sorted _, filter_sortLane n _⟩
      rw [hdest, hm, Option.map_some']

/-- Claim C4, witness: lanes discovered in order `[3, 1, 2]` produce the
byte stream `lane1 ++ lane2 ++ lane3`. -/
theorem multi_entry_concatenates_in_lane_order_witness :
    (FS.mk [([['o'], ['d']], [1, 2, 3])] [[], [['o']]]).readFile [['o'], ['d']] =
        (mapReads (FS.mk [([['a']], [3]), ([['b']], [1]), ([['c']], [2])] []).files
          (sortLane [⟨[['a']], 3⟩, ⟨[['b']], 1⟩, ⟨[['c']], 2⟩])).map List.flatten ∧
      List.Pairwise (fun a b => a.lane ≤ b.lane)
        (sortLane [⟨[['a']], 3⟩, ⟨[['b']], 1⟩, ⟨[['c']], 2⟩]) ∧
      (sortLane [⟨[['a']], 3⟩, ⟨[['b']], 1⟩, ⟨[['c']], 2⟩]).filter
          (fun x => x.lane == 1) =
        [⟨[['a']], 3⟩, ⟨[['b']], 1⟩, ⟨[['c']], 2⟩].filter (fun x => x.lane == 1) :=
  multi_entry_concatenates_in_lane_order
    [⟨[['a']], 3⟩, ⟨[['b']], 1⟩, ⟨[['c']], 2⟩] [['o'], ['d']]
    (FS.mk [([['a']], [3]), ([['b']], [1]), ([['c']], [2])] [])
    (FS.mk [([['o'], ['d']], [1, 2, 3])] [[], [['o']]])
    1 (by decide) (by decide) (by decide)

/-- Claim C5.  A single-entry group is relocated by a move: afterwards
the destination holds exactly the sole source's bytes and the source
path no longer exists. -/
theorem single_entry_moved (entries : List FastqEntry) (e : FastqEntry)
    (dest : FPath) (fs fs' : FS)
    (hone : entries = [e]) (hne : e.path ≠ dest)
    (hrun : relocate entries dest fs = some fs') :
    fs'.readFile dest = fs.readFile e.path ∧
      (fs.readFile e.path).isSome = true ∧
      fs'.readFile e.path = none := by
  subst hone
  rw [relocate_one] at hrun
  cases hre : (fs.mkdirAll dest.dropLast).readFile e.path with
  | none => rw [hre] at hrun; exact Option.noConfusion hrun
  | some c =>
    rw [hre, Option.map_some'] at hrun
    have hfs' : fs' =
        ((fs.mkdirAll dest.dropLast).eraseFile e.path).writeFile dest c :=
      (Option.some.injEq _ _ ▸ hrun).symm
    have hre' : fs.readFile e.path = some c := hre
    subst hfs'
    refine ⟨?_, ?_, ?_⟩
    · rw [readFile_writeFile_self, hre']
    · rw [hre']; rfl
    · rw [readFile_writeFile_ne _ _ hne]
      exact readFile_eraseFile_self _ _

/-- Claim C5, witness. -/
theorem single_entry_moved_witness :
    (FS.mk [([['o'], ['d']], [7, 8])] [[], [['o']]]).readFile [['o'], ['d']] =
        (FS.mk [([['s']], [7, 8])] []).readFile [['s']] ∧
      ((FS.mk [([['s']], [7, 8])] []).readFile [['s']]).isSome = true ∧
      (FS.mk [([['o'], ['d']], [7, 8])] [[], [['o']]]).readFile [['s']] = none :=
  single_entry_moved [⟨[['s']], 1⟩] ⟨[['s']], 1⟩ [['o'], ['d']]
    (FS.mk [([['s']], [7, 8])] [])
    (FS.mk [([['o'], ['d']], [7, 8])] [[], [['o']]])
    rfl (by decide) (by decide)

/-- Claim C9.  A pre-existing regular file at the destination is silently
replaced: `relocate` over a filesystem whose destination holds arbitrary
prior content gives exactly the same result as with the destination
absent — the multi-entry path truncates it on open, the single-entry
move overwrites it; it is never appended to and never refused. -/
theorem preexisting_destination_replaced (entries : List FastqEntry)
    (dest : FPath) (fs : FS) (old : Bytes)
    (hd : ∀ x ∈ entries, x.path ≠ dest) :
    relocate entries dest (fs.writeFile dest old) =
      relocate entries dest (fs.eraseFile dest) := by
  have hbase :
      (((fs.writeFile dest old).mkdirAll dest.dropLast).mkdirAll
          dest.dropLast).writeFile dest ([] : Bytes) =
        (((fs.eraseFile dest).mkdirAll dest.dropLast).mkdirAll
          dest.dropLast).writeFile dest ([] : Bytes) := by
    show FS.mk _ _ = FS.mk _ _
    rw [FS.mk.injEq]
    exact ⟨(writeF_writeF fs.files dest old []).trans
      (writeF_eraseF fs.files dest []).symm, rfl⟩
  cases entries with
  | nil =>
    rw [relocate_nil, relocate_nil]
    have hcc : concatenate [] dest ((fs.writeFile dest old).mkdirAll dest.dropLast) =
        concatenate [] dest ((fs.eraseFile dest).mkdirAll dest.dropLast) := by
      unfold concatenate
      rw [hbase]
    rw [hcc]
  | cons e1 rest =>
    cases rest with
    | nil =>
      rw [relocate_one, relocate_one]
      have hne : e1.path ≠ dest := hd e1 (by simp)
      have hread : ((fs.writeFile dest old).mkdirAll dest.dropLast).readFile e1.path =
          ((fs.eraseFile dest).mkdirAll dest.dropLast).readFile e1.path := by
        show Store.readF (fs.files.writeF dest old) e1.path =
          Store.readF (fs.files.eraseF dest) e1.path
        rw [readF_writeF_ne old hne, readF_eraseF_ne hne]
      rw [hread]
      cases hre : ((fs.eraseFile dest).mkdirAll dest.dropLast).readFile e1.path with
      | none => rfl
      | some c =>
        rw [Option.map_some', Option.map_some']
        refine congrArg some ?_
        show FS.mk _ _ = FS.mk _ _
        rw [FS.mk.injEq]
        exact ⟨store_write_erase_write fs.files dest e1.path old c hne, rfl⟩
    | cons e2 es =>
      rw [relocate_two, relocate_two]
      have hcc : concatenate (e1 :: e2 :: es) dest
          ((fs.writeFile dest old).mkdirAll dest.dropLast) =
          concatenate (e1 :: e2 :: es) dest
            ((fs.eraseFile dest).mkdirAll dest.dropLast) := by
        unfold concatenate
        rw [hbase]
      rw [hcc]

/-- Claim C9, witness. -/
theorem preexisting_destination_replaced_witness :
    relocate [⟨[['a']], 2⟩, ⟨[['b']], 1⟩] [['o'], ['d']]
        ((FS.mk [([['a']], [10]), ([['b']], [20])] []).writeFile [['o'], ['d']] [99]) =
      relocate [⟨[['a']], 2⟩, ⟨[['b']], 1⟩] [['o'], ['d']]
        ((FS.mk [([['a']], [10]), ([['b']], [20])] []).eraseFile [['o'], ['d']]) :=
  preexisting_destination_replaced [⟨[['a']], 2⟩, ⟨[['b']], 1⟩] [['o'], ['d']]
    (FS.mk [([['a']], [10]), ([['b']], [20])] []) [99] (by decide)

/-- Claim C10.  Matching is case-insensitive, but the captured fields
keep their original casing and are used verbatim: the filename
decomposes exactly into the captured substrings, the destination path is
assembled from them unchanged, and consequently `x_A_L001_R1.fastq` and
`x_A_L001_R1.FASTQ` carry different keys and map to different
destination files. -/
theorem captured_casing_used_verbatim (s : List Char) (m : FastqMatch)
    (odir : FPath) (h : fastqMatch s = some m) :
    s = m.flat ∧
      destPath odir (m.sample, m.rdir, m.ext) =
        odir ++ [m.sample, m.sample ++ '_' :: 'R' :: m.rdir :: m.ext] ∧
      ((fastqMatch "x_A_L001_R1.fastq".data).map fun mm =>
          (mm.sample, mm.rdir, mm.ext)) = some ("A".data, '1', ".fastq".data) ∧
      ((fastqMatch "x_A_L001_R1.FASTQ".data).map fun mm =>
          (mm.sample, mm.rdir, mm.ext)) = some ("A".data, '1', ".FASTQ".data) ∧
      destPath [] ("A".data, '1', ".fastq".data) ≠
        destPath [] ("A".data, '1', ".FASTQ".data) :=
  ⟨((fastqMatch_eq_some_iff s m).mp h).1, rfl, by decide, by decide, by decide⟩

/-- Claim C10, witness. -/
theorem captured_casing_used_verbatim_witness :
    "x_A_L001_R1.fastq".data =
        (FastqMatch.mk "x".data "A".data "001".data 'L' 'R' '1'
          ".fastq".data false).flat ∧
      destPath [] ("A".data, '1', ".fastq".data) =
        [] ++ ["A".data, "A".data ++ '_' :: 'R' :: '1' :: ".fastq".data] ∧
      ((fastqMatch "x_A_L001_R1.fastq".data).map fun mm =>
          (mm.sample, mm.rdir, mm.ext)) = some ("A".data, '1', ".fastq".data) ∧
      ((fastqMatch "x_A_L001_R1.FASTQ".data).map fun mm =>
          (mm.sample, mm.rdir, mm.ext)) = some ("A".data, '1', ".FASTQ".data) ∧
      destPath [] ("A".data, '1', ".fastq".data) ≠
        destPath [] ("A".data, '1', ".FASTQ".data) :=
  captured_casing_used_verbatim "x_A_L001_R1.fastq".data
    (FastqMatch.mk "x".data "A".data "001".data 'L' 'R' '1' ".fastq".data false)
    [] (by decide)

end OrganizeFastq
